import Mathlib

/-!
Shallow embedding of src/main.cpp (tasyrkin/tech-test-mail-ru), a
command-line utility that rewrites tab-delimited lines by applying
per-field transformations.

Strings of the C++ program are modelled as lists of byte values
(natural numbers); field indices are modelled as integers, matching the
int type used by the Command classes and std::stoi.

The statement at line 196 of main.cpp dereferences the optional returned
by Command::apply before any has_value check.  When that optional is
empty the dereference is undefined behaviour; the embedding makes this
explicit by taking an arbitrary placeholder string ub as the value such
a dereference produces and by recording, in a flag, that it happened.
-/

/-- A byte of a C++ std::string. -/
abbrev Byte := Nat

/-- Translation of the tokenize function of main.cpp: repeatedly skip a
run of delimiter characters (find_first_not_of) and emit the following
run of non-delimiter characters (find plus substr), until the input is
exhausted. -/
def tokenize (delim : Byte) : List Byte → List (List Byte)
  | [] => []
  | c :: cs =>
    if c = delim then
      tokenize delim cs
    else
      ((c :: cs).takeWhile (fun x => x ≠ delim)) ::
        tokenize delim ((c :: cs).dropWhile (fun x => x ≠ delim))
termination_by l => l.length
decreasing_by
  · simp
  · have h1 : (c :: cs).dropWhile (fun x => decide (x ≠ delim)) = cs.dropWhile (fun x => decide (x ≠ delim)) := by
      rw [List.dropWhile_cons_of_pos]
      simp [*]
    rw [h1]
    exact Nat.lt_succ_of_le (List.dropWhile_sublist _).length_le

/-- The three concrete Command subclasses of main.cpp, with their
configuration members (the target field index and, for ReplaceCommand,
the two configured characters). -/
inductive Command where
  | lowerCase (field_ : Int)
  | upperCase (field_ : Int)
  | replace (field_ : Int) (from_ : Byte) (to_ : Byte)
deriving DecidableEq

/-- ASCII toupper in the C locale: lowercase letters are shifted to the
corresponding uppercase letter, everything else passes through. -/
def ctoupper (c : Byte) : Byte := if 97 ≤ c ∧ c ≤ 122 then c - 32 else c

/-- ASCII tolower in the C locale: uppercase letters are shifted to the
corresponding lowercase letter, everything else passes through. -/
def ctolower (c : Byte) : Byte := if 65 ≤ c ∧ c ≤ 90 then c + 32 else c

/-- Command::apply, translated per subclass from main.cpp: each variant
returns the empty optional when the field argument differs from its
field_ member, and otherwise a fresh string built by its per-character
loop.  LowerCaseCommand pushes toupper of each character,
UpperCaseCommand pushes tolower of each character, and ReplaceCommand
pushes from_ when the character equals from_ and the character itself
otherwise. -/
def Command.apply : Command → Int → List Byte → Option (List Byte)
  | .lowerCase t, field, str =>
      if field ≠ t then none else some (str.map ctoupper)
  | .upperCase t, field, str =>
      if field ≠ t then none else some (str.map ctolower)
  | .replace t frm _, field, str =>
      if field ≠ t then none
      else some (str.map (fun c => if c = frm then frm else c))

/-- The field_ member of each Command subclass. -/
def Command.targetField : Command → Int
  | .lowerCase t => t
  | .upperCase t => t
  | .replace t _ _ => t

/-- The mutable state threaded through apply_commands: the changed flag
(a bool reference handed in by main), plus two instrumentation flags of
the embedding: ubHit records that the dereference at line 196 was
applied to an empty optional (undefined behaviour in the source), and
guardSawNone records that the has_value guard at line 197 ever took its
false branch. -/
structure LoopState where
  changed : Bool
  ubHit : Bool
  guardSawNone : Bool
deriving DecidableEq

/-- The unconditional dereference of the optional returned by
Command::apply at line 196 of main.cpp: on an engaged optional it yields
the contained string; on an empty optional the behaviour is undefined,
modelled by the placeholder string ub together with a flag recording
that the empty dereference happened. -/
def derefStar (ub : List Byte) : Option (List Byte) → List Byte × Bool
  | some s => (s, false)
  | none => (ub, true)

/-- The inner loop of apply_commands over the command list for one
field: modified_str is initialised from the dereferenced result of
apply (so it always holds a value), and when it holds a value the field
string is replaced and changed is set to true. -/
def applyToField (ub : List Byte) (cmds : List Command) (idx : Int)
    (str : List Byte) (st : LoopState) : List Byte × LoopState :=
  match cmds with
  | [] => (str, st)
  | command :: rest =>
      let d := derefStar ub (command.apply idx str)
      let modified_str : Option (List Byte) := some d.1
      let st1 : LoopState := { st with ubHit := st.ubHit || d.2 }
      if modified_str.isSome then
        applyToField ub rest idx (modified_str.getD str) { st1 with changed := true }
      else
        applyToField ub rest idx str { st1 with guardSawNone := true }

/-- The outer loop of apply_commands over the fields, in index order:
each field is run through the whole command list and then pushed onto
the modified vector. -/
def applyToFields (ub : List Byte) (cmds : List Command) :
    List (List Byte) → Int → LoopState → List (List Byte) × LoopState
  | [], _, st => ([], st)
  | f :: fs, idx, st =>
      let r := applyToField ub cmds idx f st
      let rest := applyToFields ub cmds fs (idx + 1) r.2
      (r.1 :: rest.1, rest.2)

/-- apply_commands of main.cpp: tokenize the line on the tab character,
then run every command over every field in order.  changed0 is the value
the changed flag had on entry (main declares it without an
initializer, so it is indeterminate). -/
def apply_commands (ub : List Byte) (line : List Byte)
    (cmds : List Command) (changed0 : Bool) : List (List Byte) × LoopState :=
  applyToFields ub cmds (tokenize 9 line) 0 ⟨changed0, false, false⟩

/-- One iteration of the while loop of main: run apply_commands on the
line and, when the changed flag ends up true, print the modified fields
joined by tabs and terminated by a newline; otherwise print nothing. -/
def line_output (ub : List Byte) (line : List Byte)
    (cmds : List Command) (changed0 : Bool) : Option (List Byte) :=
  let r := apply_commands ub line cmds changed0
  if r.2.changed then some (List.intercalate [9] r.1 ++ [10]) else none

/-- The two distinct fatal outcomes of parse_commands: the usage path
(print_help_and_exit prints the help text and calls exit(1)) and an
exception thrown by std::stoi, which is never caught and terminates the
process outside the usage path. -/
inductive ParseFailure where
  | usage
  | stoiThrow
deriving DecidableEq

/-- Whitespace as recognised by strtol in the C locale. -/
def isCSpace (c : Byte) : Bool := c = 32 || (9 ≤ c && c ≤ 13)

/-- ASCII decimal digit test. -/
def isCDigit (c : Byte) : Bool := 48 ≤ c && c ≤ 57

/-- std::stoi with the default base 10, modelled after strtol: skip
leading whitespace, consume an optional sign and then the longest run of
decimal digits, ignoring any remaining characters.  Returns none when no
digit was consumed (std::invalid_argument is thrown) or when the value
does not fit in int (std::out_of_range is thrown). -/
def stoi (s : List Byte) : Option Int :=
  let t := s.dropWhile isCSpace
  let signAndRest : Bool × List Byte :=
    match t with
    | 43 :: r => (false, r)
    | 45 :: r => (true, r)
    | _ => (false, t)
  let ds := signAndRest.2.takeWhile isCDigit
  if ds.isEmpty then none
  else
    let mag : Int := (ds.foldl (fun a c => a * 10 + (c - 48)) 0 : Nat)
    let v : Int := if signAndRest.1 then -mag else mag
    if v < -(2 : Int) ^ 31 ∨ (2 : Int) ^ 31 ≤ v then none else some v

/-- The body of the for loop of parse_commands of main.cpp for one argv
token: tokenize the token on the colon character; when this does not
give exactly two parts, take the usage path; otherwise convert the first
part with std::stoi and dispatch on the second part, taking the usage
path when it is neither the single character u, nor the single character
U, nor three characters long with first character R. -/
def parse_command_token (tok : List Byte) : Except ParseFailure Command :=
  match tokenize 58 tok with
  | [p0, p1] =>
    match stoi p0 with
    | none => .error .stoiThrow
    | some field =>
      if p1 = [117] then .ok (.lowerCase field)
      else if p1 = [85] then .ok (.upperCase field)
      else if p1.length ≠ 3 then .error .usage
      else if p1.headD 0 ≠ 82 then .error .usage
      else .ok (.replace field (p1.getD 1 0) (p1.getD 2 0))
  | _ => .error .usage

/-- parse_commands of main.cpp over the argv tokens that follow the file
path: tokens are parsed in order and the first failure terminates the
run, so no command list is produced in that case. -/
def parse_commands (toks : List (List Byte)) : Except ParseFailure (List Command) :=
  match toks with
  | [] => .ok []
  | tok :: rest =>
    match parse_command_token tok with
    | .error e => .error e
    | .ok c =>
      match parse_commands rest with
      | .error e => .error e
      | .ok cs => .ok (c :: cs)

/-- Statement helper: there is a field position (counting from idx) and
a command whose configured target field differs from that position, i.e.
some invocation of Command::apply during apply_commands returns the
empty optional. -/
def mismatchExists (cmds : List Command) : List (List Byte) → Int → Bool
  | [], _ => false
  | _ :: fs, idx =>
      cmds.any (fun c => decide (idx ≠ c.targetField)) || mismatchExists cmds fs (idx + 1)

/-! ### Helper lemmas about the embedding -/

lemma apply_eq_none_iff (c : Command) (field : Int) (s : List Byte) :
    c.apply field s = none ↔ field ≠ c.targetField := by
  cases c <;>
    (simp only [Command.apply, Command.targetField]; split <;> simp_all)

lemma applyToField_cons (ub : List Byte) (c : Command) (rest : List Command)
    (idx : Int) (f : List Byte) (st : LoopState) :
    applyToField ub (c :: rest) idx f st =
      applyToField ub rest idx (derefStar ub (c.apply idx f)).1
        ⟨true, st.ubHit || (derefStar ub (c.apply idx f)).2, st.guardSawNone⟩ := rfl

lemma derefStar_snd (ub : List Byte) (c : Command) (idx : Int) (f : List Byte) :
    (derefStar ub (c.apply idx f)).2 = decide (idx ≠ c.targetField) := by
  cases hh : c.apply idx f with
  | none => simp [derefStar, (apply_eq_none_iff _ _ _).mp hh]
  | some v =>
      have h2 : ¬ idx ≠ c.targetField := fun hne => by
        rw [(apply_eq_none_iff _ _ _).mpr hne] at hh
        cases hh
      simp [derefStar, h2]

lemma applyToField_changed (ub : List Byte) (cmds : List Command) (idx : Int)
    (f : List Byte) (st : LoopState) :
    (applyToField ub cmds idx f st).2.changed = (st.changed || !cmds.isEmpty) := by
  induction cmds generalizing f st with
  | nil => simp [applyToField]
  | cons c rest ih => rw [applyToField_cons, ih]; simp

lemma applyToField_guard (ub : List Byte) (cmds : List Command) (idx : Int)
    (f : List Byte) (st : LoopState) :
    (applyToField ub cmds idx f st).2.guardSawNone = st.guardSawNone := by
  induction cmds generalizing f st with
  | nil => rfl
  | cons c rest ih => rw [applyToField_cons, ih]

lemma applyToField_ubHit (ub : List Byte) (cmds : List Command) (idx : Int)
    (f : List Byte) (st : LoopState) :
    (applyToField ub cmds idx f st).2.ubHit =
      (st.ubHit || cmds.any (fun c => decide (idx ≠ c.targetField))) := by
  induction cmds generalizing f st with
  | nil => simp [applyToField]
  | cons c rest ih =>
      rw [applyToField_cons, ih]
      simp [derefStar_snd, Bool.or_assoc]

lemma applyToField_fst_state (ub : List Byte) (cmds : List Command) (idx : Int)
    (f : List Byte) (st st' : LoopState) :
    (applyToField ub cmds idx f st).1 = (applyToField ub cmds idx f st').1 := by
  induction cmds generalizing f st st' with
  | nil => rfl
  | cons c rest ih => rw [applyToField_cons, applyToField_cons]; exact ih _ _ _

lemma applyToFields_changed (ub : List Byte) (cmds : List Command)
    (fields : List (List Byte)) (idx : Int) (st : LoopState) :
    (applyToFields ub cmds fields idx st).2.changed =
      (st.changed || (!fields.isEmpty && !cmds.isEmpty)) := by
  induction fields generalizing idx st with
  | nil => simp [applyToFields]
  | cons f fs ih =>
      simp only [applyToFields]
      rw [ih, applyToField_changed]
      cases st.changed <;> cases hc : cmds.isEmpty <;> simp

lemma applyToFields_guard (ub : List Byte) (cmds : List Command)
    (fields : List (List Byte)) (idx : Int) (st : LoopState) :
    (applyToFields ub cmds fields idx st).2.guardSawNone = st.guardSawNone := by
  induction fields generalizing idx st with
  | nil => rfl
  | cons f fs ih => simp only [applyToFields]; rw [ih, applyToField_guard]

lemma applyToFields_ubHit (ub : List Byte) (cmds : List Command)
    (fields : List (List Byte)) (idx : Int) (st : LoopState) :
    (applyToFields ub cmds fields idx st).2.ubHit =
      (st.ubHit || mismatchExists cmds fields idx) := by
  induction fields generalizing idx st with
  | nil => simp [applyToFields, mismatchExists]
  | cons f fs ih =>
      simp only [applyToFields, mismatchExists]
      rw [ih, applyToField_ubHit]
      simp [Bool.or_assoc]

lemma applyToFields_fst (ub : List Byte) (cmds : List Command)
    (fields : List (List Byte)) (idx0 : Int) (st : LoopState) :
    (applyToFields ub cmds fields idx0 st).1 =
      (List.enumFrom 0 fields).map
        (fun p => (applyToField ub cmds (idx0 + (p.1 : Int)) p.2 ⟨false, false, false⟩).1) := by
  induction fields generalizing idx0 st with
  | nil => rfl
  | cons f fs ih =>
      simp only [applyToFields]
      rw [List.enumFrom_cons' 0 f fs]
      simp only [List.map_cons, List.map_map]
      refine congrArg₂ List.cons ?_ ?_
      · rw [applyToField_fst_state ub cmds _ _ st ⟨false, false, false⟩]
        norm_num
      · rw [ih]
        refine List.map_congr_left (fun p _ => ?_)
        obtain ⟨a, b⟩ := p
        have h2 : idx0 + ((a + 1 : Nat) : Int) = idx0 + 1 + (a : Int) := by
          push_cast
          ring
        simp only [Function.comp, Prod.map, id_eq, h2]

lemma replace_map_id (frm : Byte) (s : List Byte) :
    s.map (fun c => if c = frm then frm else c) = s := by
  induction s with
  | nil => rfl
  | cons c cs ih =>
      simp only [List.map_cons, ih]
      by_cases h : c = frm
      · rw [if_pos h, h]
      · rw [if_neg h]

/-! ### Claim theorems -/

/-- Claim C5: for every Transformation variant, every field index and
every text, apply returns the empty optional exactly when the field
index differs from the configured target field, and returns some string
exactly when the field index equals the target field. -/
theorem claim5_apply_none_iff_mismatch (c : Command) (field : Int) (s : List Byte) :
    (c.apply field s = none ↔ field ≠ c.targetField) ∧
    ((∃ r, c.apply field s = some r) ↔ field = c.targetField) := by
  refine ⟨apply_eq_none_iff c field s, ?_, ?_⟩
  · rintro ⟨r, hr⟩
    by_contra hne
    rw [(apply_eq_none_iff c field s).mpr hne] at hr
    cases hr
  · intro he
    cases hh : c.apply field s with
    | none => exact absurd ((apply_eq_none_iff c field s).mp hh) (by simp [he])
    | some r => exact ⟨r, rfl⟩

/-- Witness for claim C5 at concrete inputs. -/
theorem claim5_witness :
    Command.apply (Command.lowerCase 2) 1 [97] = none ∧
    (∃ r, Command.apply (Command.lowerCase 2) 2 [97] = some r) :=
  ⟨(claim5_apply_none_iff_mismatch (Command.lowerCase 2) 1 [97]).1.mpr (by decide),
   (claim5_apply_none_iff_mismatch (Command.lowerCase 2) 2 [97]).2.mpr (by decide)⟩

/-- Claim C6: when the field index matches the target, the LowerCase
named command maps every character with ASCII toupper (lowercase
letters are uppercased, all other bytes pass through) and the UpperCase
named command maps every character with ASCII tolower, i.e. the naming
is inverted relative to the effect. -/
theorem claim6_case_naming_inverted (t : Int) (s : List Byte) :
    Command.apply (Command.lowerCase t) t s = some (s.map ctoupper) ∧
    Command.apply (Command.upperCase t) t s = some (s.map ctolower) ∧
    (∀ c : Byte, 97 ≤ c → c ≤ 122 → ctoupper c = c - 32) ∧
    (∀ c : Byte, ¬(97 ≤ c ∧ c ≤ 122) → ctoupper c = c) ∧
    (∀ c : Byte, 65 ≤ c → c ≤ 90 → ctolower c = c + 32) ∧
    (∀ c : Byte, ¬(65 ≤ c ∧ c ≤ 90) → ctolower c = c) := by
  refine ⟨by simp [Command.apply], by simp [Command.apply], ?_, ?_, ?_, ?_⟩
  · intro c h1 h2; simp [ctoupper, h1, h2]
  · intro c h; simp [ctoupper, h]
  · intro c h1 h2; simp [ctolower, h1, h2]
  · intro c h; simp [ctolower, h]

/-- Witness for claim C6 at concrete inputs. -/
theorem claim6_witness :
    ctoupper 97 = 97 - 32 ∧ ctoupper 48 = 48 ∧
    ctolower 65 = 65 + 32 ∧ ctolower 48 = 48 :=
  ⟨(claim6_case_naming_inverted 0 []).2.2.1 97 (by decide) (by decide),
   (claim6_case_naming_inverted 0 []).2.2.2.1 48 (by decide),
   (claim6_case_naming_inverted 0 []).2.2.2.2.1 65 (by decide) (by decide),
   (claim6_case_naming_inverted 0 []).2.2.2.2.2 48 (by decide)⟩

/-- Claim C7: for every configuration of from and to and every text,
when the field index matches the target the Replace command returns a
string equal character for character to the input text (the to
parameter is dead configuration), yet because a value is returned the
caller still ends up with changed set to true. -/
theorem claim7_replace_identity_sets_changed (frm toc : Byte) (t : Int) (s : List Byte) :
    Command.apply (Command.replace t frm toc) t s = some s ∧
    (∀ (ub f : List Byte) (fs : List (List Byte)) (c0 : Bool),
      (applyToFields ub [Command.replace 0 frm toc] (f :: fs) 0
        ⟨c0, false, false⟩).2.changed = true) := by
  constructor
  · simp [Command.apply, replace_map_id]
  · intro ub f fs c0
    rw [applyToFields_changed]
    simp

/-- Claim C1 counterexample: with the single command Replace targeting
field 0 with from x and to y, on the line xyz every modified field
equals its original value, yet the changed flag comes back true; so
changed being true does not imply that some field value differs. -/
theorem claim1_counterexample :
    (apply_commands [] [120, 121, 122] [Command.replace 0 120 121] false).1 =
      tokenize 9 [120, 121, 122] ∧
    (apply_commands [] [120, 121, 122] [Command.replace 0 120 121] false).2.changed = true := by
  have ht : tokenize 9 [120, 121, 122] = [[120, 121, 122]] := by simp [tokenize]
  simp only [apply_commands, ht]
  decide

/-- Claim C1 amended: the changed flag returned by apply_commands equals
its entry value, or else true exactly when the line has at least one
field and the command list is nonempty; every executed iteration of the
command loop assigns true because the unconditionally dereferenced
optional always holds a value, so the flag does not track whether any
field value actually differs from its original value. -/
theorem claim1_amended (ub line : List Byte) (cmds : List Command) (changed0 : Bool) :
    (apply_commands ub line cmds changed0).2.changed =
      (changed0 || (!(tokenize 9 line).isEmpty && !cmds.isEmpty)) := by
  unfold apply_commands
  exact applyToFields_changed ub cmds (tokenize 9 line) 0 ⟨changed0, false, false⟩

/-- Claim C3: in apply_commands the optional returned by Command::apply
is dereferenced before its has_value check, so the guard at line 197
never sees an empty optional, and an empty optional is dereferenced
exactly when some field position differs from the target field of some
command. -/
theorem claim3_deref_before_guard (ub line : List Byte) (cmds : List Command) (changed0 : Bool) :
    (apply_commands ub line cmds changed0).2.guardSawNone = false ∧
    (apply_commands ub line cmds changed0).2.ubHit =
      mismatchExists cmds (tokenize 9 line) 0 := by
  unfold apply_commands
  constructor
  · rw [applyToFields_guard]
  · rw [applyToFields_ubHit]
    simp

/-- Claim C4 counterexample: on the single-field line a with the single
command targeting field 1, Command::apply returns the empty optional on
the only field, yet changed is assigned true through the unconditional
dereference, so the emission decision reads true rather than the
indeterminate initial value. -/
theorem claim4_counterexample :
    Command.apply (Command.lowerCase 1) 0 [97] = none ∧
    (apply_commands [] [97] [Command.lowerCase 1] false).2.changed = true := by
  have ht : tokenize 9 [97] = [[97]] := by simp [tokenize]
  simp only [apply_commands, ht]
  decide

/-- Claim C4 amended: main declares changed without an initializer and
apply_commands never assigns false to it, so a true entry value stays
true; when the line has no fields or the command list is empty no
assignment happens at all and the emission decision reads the
indeterminate initial value unchanged; but when at least one field
meets at least one command, changed is assigned true even if every
Command::apply invocation returns the empty optional. -/
theorem claim4_amended (ub line : List Byte) (cmds : List Command) (changed0 : Bool) :
    (changed0 = true → (apply_commands ub line cmds changed0).2.changed = true) ∧
    (tokenize 9 line = [] ∨ cmds = [] →
      (apply_commands ub line cmds changed0).2.changed = changed0) := by
  unfold apply_commands
  rw [applyToFields_changed]
  constructor
  · intro h; simp [h]
  · rintro (h | h) <;> simp [h]

/-- Witness for claim C4 amended at concrete inputs. -/
theorem claim4_witness :
    (apply_commands [] [97] [] true).2.changed = true ∧
    (apply_commands [] [97] [] false).2.changed = false :=
  ⟨(claim4_amended [] [97] [] true).1 rfl,
   (claim4_amended [] [97] [] false).2 (Or.inr rfl)⟩

/-- Claim C2, evaluated at the failing input: on the line consisting of
the single field a, with the single command built from the token 1:u,
no command is applicable to any field, yet main emits an output line
whatever string the undefined dereference produced and whatever value
the uninitialized changed flag started with; the run dereferences an
empty optional on the way, so the claimed no-output behaviour for
unmatched lines is not what the code does. -/
theorem claim2_unmatched_line_emitted (ub : List Byte) (changed0 : Bool) :
    line_output ub [97] [Command.lowerCase 1] changed0 = some (ub ++ [10]) ∧
    (apply_commands ub [97] [Command.lowerCase 1] changed0).2.ubHit = true := by
  have ht : tokenize 9 [97] = [[97]] := by simp [tokenize]
  have h1 : apply_commands ub [97] [Command.lowerCase 1] changed0 =
      ([ub], ⟨true, true, false⟩) := by
    simp [apply_commands, ht, applyToFields, applyToField, derefStar, Command.apply]
  refine ⟨?_, by rw [h1]⟩
  simp [line_output, h1, List.intercalate]

/-- Claim C8: apply_commands processes the fields in index order, each
field independently of the loop state left by earlier fields, running
the command list front to back on it; and whenever a command returns a
value, that value replaces the field string before the next command
runs, so later commands observe the output of the prior command on the
same field. -/
theorem claim8_iteration_order :
    (∀ (ub line : List Byte) (cmds : List Command) (changed0 : Bool),
      (apply_commands ub line cmds changed0).1 =
        (List.enumFrom 0 (tokenize 9 line)).map
          (fun p => (applyToField ub cmds (p.1 : Int) p.2 ⟨false, false, false⟩).1)) ∧
    (∀ (ub : List Byte) (c : Command) (cs : List Command) (idx : Int)
        (f v : List Byte) (st : LoopState),
      c.apply idx f = some v →
        applyToField ub (c :: cs) idx f st =
          applyToField ub cs idx v ⟨true, st.ubHit, st.guardSawNone⟩) := by
  constructor
  · intro ub line cmds changed0
    unfold apply_commands
    rw [applyToFields_fst]
    refine List.map_congr_left (fun p _ => ?_)
    norm_num
  · intro ub c cs idx f v st h
    rw [applyToField_cons, h]
    simp [derefStar]

/-- Witness for claim C8 at concrete inputs. -/
theorem claim8_witness :
    Command.apply (Command.lowerCase 0) 0 [97] = some [65] ∧
    applyToField [] [Command.lowerCase 0, Command.lowerCase 0] 0 [97] ⟨false, false, false⟩ =
      applyToField [] [Command.lowerCase 0] 0 [65] ⟨true, false, false⟩ :=
  ⟨by decide,
   claim8_iteration_order.2 [] (Command.lowerCase 0) [Command.lowerCase 0] 0 [97] [65]
     ⟨false, false, false⟩ (by decide)⟩

/-- Claim C9 counterexample: the token a:xx splits on the colon into
exactly two parts whose second part is neither u nor U nor three
characters starting with R, so the claim predicts the usage path with
exit code 1; but std::stoi throws on the first part before the second
part is examined, terminating the run outside the usage path. -/
theorem claim9_counterexample :
    tokenize 58 [97, 58, 120, 120] = [[97], [120, 120]] ∧
    parse_commands [[97, 58, 120, 120]] = Except.error ParseFailure.stoiThrow ∧
    ParseFailure.stoiThrow ≠ ParseFailure.usage := by
  have ht : tokenize 58 [97, 58, 120, 120] = [[97], [120, 120]] := by simp [tokenize]
  refine ⟨ht, ?_, by decide⟩
  simp only [parse_commands, parse_command_token, ht]
  rfl

/-- Claim C9 amended: for every command token, if splitting on the
colon does not give exactly two parts the result is the fatal usage
path; if it gives two parts whose first part converts via std::stoi and
whose second part is neither exactly u, nor exactly U, nor exactly
three characters starting with R, the result is also the fatal usage
path; and a failing token makes the whole parse fail with that failure,
so no Transformation list is produced.  When the first part does not
convert, std::stoi throws instead and the run terminates outside the
usage path. -/
theorem claim9_amended (tok : List Byte) :
    ((tokenize 58 tok).length ≠ 2 → parse_command_token tok = .error .usage) ∧
    (∀ p0 p1 n, tokenize 58 tok = [p0, p1] → stoi p0 = some n →
      p1 ≠ [117] → p1 ≠ [85] → ¬(p1.length = 3 ∧ p1.headD 0 = 82) →
      parse_command_token tok = .error .usage) ∧
    (∀ (e : ParseFailure) (rest : List (List Byte)),
      parse_command_token tok = .error e →
      parse_commands (tok :: rest) = .error e) := by
  refine ⟨?_, ?_, ?_⟩
  · intro h
    rcases htk : tokenize 58 tok with _ | ⟨p0, _ | ⟨p1, _ | ⟨p2, rest3⟩⟩⟩
    · simp [parse_command_token, htk]
    · simp [parse_command_token, htk]
    · rw [htk] at h
      simp at h
    · simp [parse_command_token, htk]
  · intro p0 p1 n htk hst h1 h2 h3
    simp only [parse_command_token, htk, hst]
    rw [if_neg h1, if_neg h2]
    by_cases hl : p1.length = 3
    · rw [if_neg (not_not_intro hl)]
      have hr : p1.headD 0 ≠ 82 := fun hh => h3 ⟨hl, hh⟩
      rw [if_pos hr]
    · rw [if_pos hl]
  · intro e rest h
    simp [parse_commands, h]

/-- Witness for claim C9 amended at concrete inputs. -/
theorem claim9_witness :
    parse_command_token [98, 97, 100] = Except.error ParseFailure.usage ∧
    parse_command_token [49, 58, 88, 89, 90] = Except.error ParseFailure.usage ∧
    parse_commands [[98, 97, 100]] = Except.error ParseFailure.usage := by
  have h1 : (tokenize 58 [98, 97, 100]).length ≠ 2 := by simp [tokenize]
  have h2 : tokenize 58 [49, 58, 88, 89, 90] = [[49], [88, 89, 90]] := by
    simp [tokenize]
  have h3 : stoi [49] = some 1 := by decide
  exact ⟨(claim9_amended [98, 97, 100]).1 h1,
    (claim9_amended [49, 58, 88, 89, 90]).2.1 [49] [88, 89, 90] 1 h2 h3
      (by decide) (by decide) (by decide),
    (claim9_amended [98, 97, 100]).2.2 ParseFailure.usage []
      ((claim9_amended [98, 97, 100]).1 h1)⟩

/-- Claim C10: tokenize produces only nonempty tokens (runs of
consecutive delimiters collapse and leading and trailing delimiters are
skipped); the empty input and an input consisting only of delimiters
give the empty sequence; and the two concrete examples from the
specification hold. -/
theorem claim10_tokenize :
    (∀ (d : Byte) (s : List Byte), ∀ t ∈ tokenize d s, t ≠ []) ∧
    (∀ d : Byte, tokenize d [] = []) ∧
    (∀ (d : Byte) (s : List Byte), (∀ c ∈ s, c = d) → tokenize d s = []) ∧
    tokenize 9 [97, 9, 9, 98] = [[97], [98]] ∧
    tokenize 58 [58, 58, 58] = [] := by
  refine ⟨?_, ?_, ?_, by simp [tokenize], by simp [tokenize]⟩
  · intro d s
    induction s using tokenize.induct d with
    | case1 => simp [tokenize]
    | case2 cs ih =>
        intro t ht
        rw [tokenize, if_pos rfl] at ht
        exact ih t ht
    | case3 c cs h ih =>
        intro t ht
        rw [tokenize, if_neg h, List.mem_cons] at ht
        rcases ht with ht | ht
        · subst ht
          simp [List.takeWhile_cons, h]
        · exact ih t ht
  · intro d
    rw [tokenize]
  · intro d s
    induction s using tokenize.induct d with
    | case1 => intro _; rw [tokenize]
    | case2 cs ih =>
        intro hall
        rw [tokenize, if_pos rfl]
        exact ih fun c hc => hall c (List.mem_cons_of_mem _ hc)
    | case3 c cs h ih =>
        intro hall
        exact absurd (hall c (List.mem_cons_self _ _)) h

/-- Witness for claim C10 at concrete inputs. -/
theorem claim10_witness :
    tokenize 9 [9, 9] = [] ∧ ([97] : List Byte) ≠ [] :=
  ⟨claim10_tokenize.2.2.1 9 [9, 9] (by decide),
   claim10_tokenize.1 9 [97, 9, 9, 98] [97] (by simp [tokenize])⟩
